import Mathlib

/-!
Shallow embedding of the completion-candidate lifecycle engine of
`src/helix-term/src/ui/completion.rs` (repository nrdxp/helix), together
with theorems settling the frozen claims about it.

Documents are modelled as `List Char` indexed by character offsets (the
source indexes a rope by char offsets).  A selection is modelled as the
list of its ranges' cursor offsets.  A transaction is the ordered list of
its `(start, end, replacement?)` changes, as in `helix_core::Transaction`.
A Rust panic (an `unwrap` of `None`) is modelled by an `Option` result
being `none`.
-/

/-- One change of a transaction: `(from, to, replacement text?)`. -/
abbrev Change := Nat × Nat × Option (List Char)

/-- A transaction: the ordered list of its changes. -/
abbrev Transaction := List Change

/-- `doc.text().slice(a..b)` on a char-indexed document. -/
def sliceChars (s : List Char) (a b : Nat) : List Char :=
  (s.take b).drop a

/-- Fuel-driven core of Rust `str::trim_start_matches` with a `&str`
pattern: repeatedly remove the pattern from the front while it is a
prefix (an empty pattern removes nothing).  The fuel starts at the
string's length, which bounds the number of strips. -/
def trimAux (p : List Char) : Nat → List Char → List Char
  | 0, s => s
  | Nat.succ n, s =>
      if !p.isEmpty && p.isPrefixOf s then trimAux p n (s.drop p.length) else s

/-- Rust `text.trim_start_matches::<&str>(&pat)` on char lists. -/
def trimStartMatches (p s : List Char) : List Char :=
  trimAux p s.length s

/-- `lsp::CompletionTextEdit`: a single replace range, or an
insert+replace pair (of which the source uses only the replace range). -/
inductive CompletionTextEdit
  | edit (rangeStart rangeEnd : Nat) (newText : List Char)
  | insertAndReplace (insertStart insertEnd replaceStart replaceEnd : Nat) (newText : List Char)
deriving DecidableEq

/-- `lsp::TextEdit`, as carried by `additional_text_edits`. -/
structure LspTextEdit where
  rangeStart : Nat
  rangeEnd : Nat
  newText : List Char
deriving DecidableEq

/-- The fields of `lsp::CompletionItem` that the engine reads. -/
structure LspItem where
  label : List Char
  filterText : Option (List Char)
  insertText : Option (List Char)
  textEdit : Option CompletionTextEdit
  additionalTextEdits : Option (List LspTextEdit)
  documentation : Option (List Char)
  preselect : Option Bool
deriving DecidableEq

/-- `PathType` from the source. -/
inductive PathType
  | dir
  | file
  | symlink
  | unknown
deriving DecidableEq

/-- `CompletionItem` from the source: an LSP candidate (server id, item,
offset encoding tag) or a filesystem path candidate (path, permission
bits, kind). -/
inductive CompletionItem
  | lsp (languageServerId : Nat) (item : LspItem) (offsetEncoding : Nat)
  | path (path : List Char) (permissions : Nat) (pathType : PathType)
deriving DecidableEq

/-- Split a path string at `/` separators. -/
def splitSlash : List Char → List (List Char)
  | [] => [[]]
  | c :: rest =>
      if c = '/' then [] :: splitSlash rest
      else
        match splitSlash rest with
        | [] => [[c]]
        | seg :: segs => (c :: seg) :: segs

/-- Rust `Path::file_name` on the path strings that occur here: the last
component after dropping empty and `.` segments, unless it is `..` (or
there is none), in which case `None`. -/
def pathFileName (s : List Char) : Option (List Char) :=
  match ((splitSlash s).filter (fun seg => !seg.isEmpty && seg ≠ ['.'])).getLast? with
  | none => none
  | some seg => if seg = ['.', '.'] then none else some seg

/-- Whether a path-token match of `PATH_REGEX` can start at this string:
the regex `((?:\.{0,2}/)+.*)$` matches at a position exactly when the
text there starts with `/`, `./` or `../`. -/
def isPathTokenStart (s : List Char) : Bool :=
  match s with
  | '/' :: _ => true
  | '.' :: '/' :: _ => true
  | '.' :: '.' :: '/' :: _ => true
  | _ => false

/-- `PATH_REGEX.find(line)`: the leftmost position where the pattern
matches; the (greedy, end-anchored) match then extends to the end of the
line, so the result is the suffix from that position. -/
def findPathToken (s : List Char) : Option (List Char) :=
  match s with
  | [] => none
  | c :: rest =>
      if isPathTokenStart (c :: rest) then some (c :: rest) else findPathToken rest

/-- `text.line_to_char(text.char_to_line(off))`: the char offset of the
start of the line containing `off` (the position after the last newline
strictly before `off`). -/
def lineStart (doc : List Char) (off : Nat) : Nat :=
  match ((doc.take off).reverse).findIdx? (fun c => c = '\n') with
  | some j => off - j
  | none => 0

/-- Modelled from the spec: `util::generate_transaction_from_completion_edit`
(helix-lsp, not under `src/`) — "translate its (possibly foreign) offset
encoding into the document's native offsets and use it verbatim as the
transaction".  Offsets are modelled as already native. -/
def generate_transaction_from_completion_edit (rangeStart rangeEnd : Nat)
    (newText : List Char) : Transaction :=
  [(rangeStart, rangeEnd, some newText)]

/-- The `CompletionItem::LSP` arm of `item_to_transaction`: an explicit
edit is used verbatim (the replace range of an insert+replace pair);
otherwise the insert text (falling back to the label) has the typed
fragment `doc[start_offset..trigger_offset]` trimmed from its front with
`trim_start_matches` and the remainder is inserted at every cursor of the
selection. -/
def lsp_item_to_transaction (doc : List Char) (sel : List Nat) (it : LspItem)
    (start_offset trigger_offset : Nat) : Transaction :=
  match it.textEdit with
  | some (CompletionTextEdit.edit rs re nt) =>
      generate_transaction_from_completion_edit rs re nt
  | some (CompletionTextEdit.insertAndReplace _ _ rs re nt) =>
      generate_transaction_from_completion_edit rs re nt
  | none =>
      let text := it.insertText.getD it.label
      let pfx := sliceChars doc start_offset trigger_offset
      let trimmed := trimStartMatches pfx text
      sel.map (fun cursor => (cursor, cursor, some trimmed))

/-- The `CompletionItem::Path` arm of `item_to_transaction`.  `none`
models a Rust panic: the source `unwrap`s both the candidate's
`file_name()` and the `PATH_REGEX` match on the line text before the
trigger offset.  On success the typed token's final path component (with
`/` appended when the token itself ends in `/`) is trimmed from the front
of the candidate's file name and the remainder is inserted at every
cursor of the selection. -/
def path_item_to_transaction (doc : List Char) (sel : List Nat)
    (candidate : List Char) (trigger_offset : Nat) : Option Transaction :=
  match pathFileName candidate with
  | none => none
  | some path_head =>
      let begin_line := lineStart doc trigger_offset
      let line_until_trigger_offset := sliceChars doc begin_line trigger_offset
      match findPathToken line_until_trigger_offset with
      | none => none
      | some tok =>
          let pfx0 := (pathFileName tok).getD []
          let pfx := if tok.getLast? = some '/' then pfx0 ++ ['/'] else pfx0
          let text := trimStartMatches pfx path_head
          some (sel.map (fun cursor => (cursor, cursor, some text)))

/-- `item_to_transaction` from the source, dispatching on the candidate
variant.  `none` models a panic (possible only in the path arm). -/
def item_to_transaction (doc : List Char) (sel : List Nat) (item : CompletionItem)
    (start_offset trigger_offset : Nat) : Option Transaction :=
  match item with
  | CompletionItem.lsp _ it _ =>
      some (lsp_item_to_transaction doc sel it start_offset trigger_offset)
  | CompletionItem.path p _ _ =>
      path_item_to_transaction doc sel p trigger_offset

/-- Outcome of `Completion::recompute_filter`: rescore the menu against a
fragment, or clear the menu (which removes the popup). -/
inductive FilterOutcome
  | dismiss
  | active (fragment : List Char)
deriving DecidableEq

/-- `Completion::recompute_filter` from the source: when
`trigger_offset ≤ cursor` the fragment `doc[start_offset..cursor]` is
extracted and the menu rescored against it; otherwise the menu is
cleared. -/
def recompute_filter (doc : List Char) (start_offset trigger_offset cursor : Nat) :
    FilterOutcome :=
  if trigger_offset ≤ cursor then
    FilterOutcome.active (sliceChars doc start_offset cursor)
  else
    FilterOutcome.dismiss

/-- The claim's reading of `recompute_filter` (stated from the spec's
words, for comparison): dismiss exactly when the cursor is strictly
before `anchor.start`. -/
def recompute_filter_claimC1 (doc : List Char) (start_offset trigger_offset cursor : Nat) :
    FilterOutcome :=
  if start_offset ≤ cursor then
    FilterOutcome.active (sliceChars doc start_offset cursor)
  else
    FilterOutcome.dismiss

/-! ## Properties of `trimStartMatches` -/

theorem trimAux_nil (p : List Char) : ∀ n, trimAux p n [] = [] := by
  intro n
  cases n with
  | zero => rfl
  | succ n =>
      cases p with
      | nil => simp [trimAux, List.isEmpty]
      | cons a as => simp [trimAux, List.isPrefixOf]

theorem trimAux_congr (p : List Char) :
    ∀ n m s, s.length ≤ n → s.length ≤ m → trimAux p n s = trimAux p m s := by
  intro n
  induction n with
  | zero =>
      intro m s hn _
      have hs : s = [] := List.eq_nil_of_length_eq_zero (Nat.le_zero.mp hn)
      subst hs
      rw [trimAux_nil, trimAux_nil]
  | succ n ih =>
      intro m s hn hm
      cases s with
      | nil => rw [trimAux_nil, trimAux_nil]
      | cons a as =>
          obtain ⟨m', rfl⟩ : ∃ m', m = m' + 1 := by
            cases m with
            | zero => simp at hm
            | succ k => exact ⟨k, rfl⟩
          show (if !p.isEmpty && p.isPrefixOf (a :: as) then
                  trimAux p n ((a :: as).drop p.length) else a :: as)
              = (if !p.isEmpty && p.isPrefixOf (a :: as) then
                  trimAux p m' ((a :: as).drop p.length) else a :: as)
          by_cases hcond : (!p.isEmpty && p.isPrefixOf (a :: as)) = true
          · have hp1 : 1 ≤ p.length := by
              cases p with
              | nil => simp at hcond
              | cons b bs => exact Nat.succ_le_succ (Nat.zero_le _)
            have hd : ((a :: as).drop p.length).length = (a :: as).length - p.length :=
              List.length_drop _ _
            have h1 : ((a :: as).drop p.length).length ≤ n := by
              rw [hd]; simp only [List.length_cons] at hn ⊢; omega
            have h2 : ((a :: as).drop p.length).length ≤ m' := by
              rw [hd]; simp only [List.length_cons] at hm ⊢; omega
            rw [if_pos hcond, if_pos hcond]
            exact ih m' _ h1 h2
          · rw [if_neg hcond, if_neg hcond]

theorem trimStartMatches_eq_self (p s : List Char)
    (h : (!p.isEmpty && p.isPrefixOf s) = false) : trimStartMatches p s = s := by
  cases s with
  | nil => exact trimAux_nil p _
  | cons a as =>
      show (if !p.isEmpty && p.isPrefixOf (a :: as) then
              trimAux p as.length ((a :: as).drop p.length) else a :: as) = a :: as
      rw [if_neg (by rw [h]; exact Bool.false_ne_true)]

theorem trimStartMatches_step (p s : List Char)
    (h : (!p.isEmpty && p.isPrefixOf s) = true) :
    trimStartMatches p s = trimStartMatches p (s.drop p.length) := by
  cases s with
  | nil =>
      exfalso
      cases p with
      | nil => simp at h
      | cons b bs => simp [List.isPrefixOf] at h
  | cons a as =>
      have hp1 : 1 ≤ p.length := by
        cases p with
        | nil => simp at h
        | cons b bs => exact Nat.succ_le_succ (Nat.zero_le _)
      show (if !p.isEmpty && p.isPrefixOf (a :: as) then
              trimAux p as.length ((a :: as).drop p.length) else a :: as)
          = trimStartMatches p ((a :: as).drop p.length)
      rw [if_pos h]
      apply trimAux_congr
      · rw [List.length_drop]; simp only [List.length_cons]; omega
      · exact Nat.le_refl _

theorem trimStartMatches_single (p s : List Char)
    (hne : p.isEmpty = false) (hpre : p.isPrefixOf s = true)
    (honce : p.isPrefixOf (s.drop p.length) = false) :
    trimStartMatches p s = s.drop p.length := by
  rw [trimStartMatches_step p s (by rw [hne, hpre]; rfl)]
  exact trimStartMatches_eq_self p _ (by rw [honce]; simp)

/-! ## Lifecycle controller: preview/commit/abort (the menu event closure) -/

/-- Document-plus-savepoint state: `content` is the live text,
`savepoint` the snapshot `doc.restore(view)` returns to. -/
structure EditorDoc where
  content : List Char
  savepoint : List Char
deriving DecidableEq

/-- `doc.restore(view)`: back to the savepoint. -/
def docRestore (d : EditorDoc) : EditorDoc :=
  { d with content := d.savepoint }

/-- `doc.savepoint()`: snapshot the current content. -/
def docSavepoint (d : EditorDoc) : EditorDoc :=
  { d with savepoint := d.content }

/-- Apply one change `(from, to, replacement?)` to a document. -/
def applyChange (content : List Char) (ch : Change) : List Char :=
  content.take ch.1 ++ (ch.2.2.getD []) ++ content.drop ch.2.1

/-- Apply a transaction: its changes are non-overlapping and ordered, so
applying them back to front keeps earlier offsets stable. -/
def applyTx (tx : Transaction) (content : List Char) : List Char :=
  tx.foldr (fun ch acc => applyChange acc ch) content

/-- Modelled from the spec: popup creation.  The savepoint is taken once,
at popup creation, by the caller of `Completion::new` (commands.rs, which
is not under `src/`): "SavePoint: an opaque snapshot of document state
taken once, at popup creation". -/
def popupCreate (c0 : List Char) : EditorDoc :=
  { content := c0, savepoint := c0 }

/-- The `PromptEvent::Update` arm of the menu closure: restore to the
savepoint (the restore at the top of the closure), synthesize the focused
candidate's transaction against the restored document, take a fresh
savepoint, then apply the transaction.  `synth` stands for
`item_to_transaction` applied to the focused candidate. -/
def handleUpdateEvent (synth : List Char → Transaction) (d : EditorDoc) : EditorDoc :=
  let d1 := docRestore d
  let tx := synth d1.content
  let d2 := docSavepoint d1
  { d2 with content := applyTx tx d2.content }

/-- The `PromptEvent::Abort` arm: the restore at the top of the closure,
then the restore of the arm itself. -/
def handleAbortEvent (d : EditorDoc) : EditorDoc :=
  docRestore (docRestore d)

/-- Run a sequence of Update events. -/
def runUpdates : List (List Char → Transaction) → EditorDoc → EditorDoc
  | [], d => d
  | s :: ss, d => runUpdates ss (handleUpdateEvent s d)

/-- The document content immediately before each preview is applied
(after the restore, before `apply_transaction`), along a sequence of
Update events. -/
def prePreviewContents : List (List Char → Transaction) → EditorDoc → List (List Char)
  | [], _ => []
  | s :: ss, d => (docRestore d).content :: prePreviewContents ss (handleUpdateEvent s d)

theorem handleUpdateEvent_savepoint (synth : List Char → Transaction) (d : EditorDoc) :
    (handleUpdateEvent synth d).savepoint = d.savepoint := rfl

theorem runUpdates_savepoint (ss : List (List Char → Transaction)) :
    ∀ d : EditorDoc, (runUpdates ss d).savepoint = d.savepoint := by
  induction ss with
  | nil => intro d; rfl
  | cons s ss ih =>
      intro d
      rw [runUpdates, ih, handleUpdateEvent_savepoint]

theorem prePreviewContents_const (c0 : List Char) (ss : List (List Char → Transaction)) :
    ∀ d : EditorDoc, d.savepoint = c0 →
      prePreviewContents ss d = ss.map (fun _ => c0) := by
  induction ss with
  | nil => intro d _; rfl
  | cons s ss ih =>
      intro d hd
      rw [prePreviewContents, List.map, ih (handleUpdateEvent s d)
        (by rw [handleUpdateEvent_savepoint, hd])]
      show d.savepoint :: _ = c0 :: _
      rw [hd]

/-! ## Initial ordering of arriving candidates (`Completion::new`) -/

/-- The sort key of `items.sort_by_key(...)` in `Completion::new`:
`!item.preselect.unwrap_or(false)` for an LSP candidate, `false` for a
path candidate (`false` sorts before `true`). -/
def preselectKey : CompletionItem → Bool
  | CompletionItem.lsp _ it _ => !(it.preselect.getD false)
  | CompletionItem.path _ _ _ => false

/-- `keyLe a b`: the key of `a` is at most the key of `b` (Bool order,
`false < true`). -/
def keyLe (a b : CompletionItem) : Bool :=
  !preselectKey a || preselectKey b

/-- Stable insertion into an already sorted list: the new element is the
earliest arrival among equal keys still to the right, so it goes before
the first element whose key is not smaller. -/
def stableInsert (x : CompletionItem) : List CompletionItem → List CompletionItem
  | [] => [x]
  | y :: ys => if keyLe x y then x :: y :: ys else y :: stableInsert x ys

/-- Rust `Vec::sort_by_key` is a stable sort; on a two-valued key it is
computed here by stable insertion (proved below to equal the stable
partition by key, the unique stable order). -/
def sort_by_key (items : List CompletionItem) : List CompletionItem :=
  items.foldr stableInsert []

theorem stableInsert_partition (x : CompletionItem) :
    ∀ (F T : List CompletionItem),
      (∀ y ∈ F, preselectKey y = false) → (∀ y ∈ T, preselectKey y = true) →
      stableInsert x (F ++ T)
        = if preselectKey x then F ++ x :: T else x :: (F ++ T) := by
  intro F
  induction F with
  | nil =>
      intro T hF hT
      cases T with
      | nil =>
          cases hx : preselectKey x with
          | false => rw [if_neg Bool.false_ne_true]; rfl
          | true => rw [if_pos rfl]; rfl
      | cons t ts =>
          have ht : preselectKey t = true := hT t (List.mem_cons_self t ts)
          have hk : keyLe x t = true := by
            unfold keyLe; rw [ht]; exact Bool.or_true _
          have hins : stableInsert x ([] ++ (t :: ts)) = x :: (t :: ts) := by
            show (if keyLe x t then x :: t :: ts else t :: stableInsert x ts) = x :: t :: ts
            rw [if_pos hk]
          cases hx : preselectKey x with
          | false => rw [if_neg Bool.false_ne_true]; exact hins
          | true => rw [if_pos rfl]; exact hins
  | cons f fs ih =>
      intro T hF hT
      have hf : preselectKey f = false := hF f (List.mem_cons_self f fs)
      have hfs : ∀ y ∈ fs, preselectKey y = false :=
        fun y hy => hF y (List.mem_cons_of_mem f hy)
      cases hx : preselectKey x with
      | false =>
          have hk : keyLe x f = true := by unfold keyLe; rw [hx]; rfl
          have hins : stableInsert x ((f :: fs) ++ T) = x :: ((f :: fs) ++ T) := by
            show (if keyLe x f then x :: (f :: (fs ++ T)) else f :: stableInsert x (fs ++ T))
                = x :: (f :: (fs ++ T))
            rw [if_pos hk]
          rw [if_neg Bool.false_ne_true, hins]
      | true =>
          have hk : keyLe x f = false := by unfold keyLe; rw [hx, hf]; rfl
          have hins : stableInsert x ((f :: fs) ++ T) = f :: stableInsert x (fs ++ T) := by
            show (if keyLe x f then x :: (f :: (fs ++ T)) else f :: stableInsert x (fs ++ T))
                = f :: stableInsert x (fs ++ T)
            rw [if_neg (by simp [hk])]
          rw [if_pos rfl, hins, ih T hfs hT, if_pos hx]
          rfl

theorem sort_by_key_eq_partition (items : List CompletionItem) :
    sort_by_key items
      = items.filter (fun i => !preselectKey i) ++ items.filter (fun i => preselectKey i) := by
  induction items with
  | nil => rfl
  | cons x xs ih =>
      show stableInsert x (sort_by_key xs) = _
      rw [ih]
      rw [stableInsert_partition x _ _
        (fun y hy => by
          have := List.of_mem_filter hy
          simpa using this)
        (fun y hy => List.of_mem_filter hy)]
      cases hx : preselectKey x with
      | false => simp [List.filter, hx]
      | true => simp [List.filter, hx]

/-! ## Validate: primary edit, additional edits, synchronous resolve -/

/-- The completion-related capabilities of a registered language server:
`None` when no `completion_provider` is declared, otherwise the
`resolve_provider` flag. -/
structure ServerCaps where
  completionProvider : Option (Option Bool)
deriving DecidableEq

/-- `Completion::resolve_completion_item` from the source: bail out
(`None`, no request) unless the server declares a completion provider
whose `resolve_provider` is `Some(true)`; then issue the blocking resolve
request.  `respond` is the oracle for
`language_server.resolve_completion_item(..)` followed by the response:
outer `none` means no deferred request was produced, `some r` means a
request was issued and parsing the response gave `r`.  The returned
`Bool` records whether a request was issued. -/
def resolve_completion_item (caps : ServerCaps) (respond : Option (Option LspItem)) :
    Bool × Option LspItem :=
  match caps.completionProvider with
  | none => (false, none)
  | some rp =>
      if rp = some true then
        match respond with
        | none => (false, none)
        | some r => (true, r)
      else (false, none)

/-- `item.additional_text_edits.as_ref().map(|edits| !edits.is_empty()).unwrap_or(false)`. -/
def hasOwnAdditionalEdits (it : LspItem) : Bool :=
  (it.additionalTextEdits.map (fun es => !es.isEmpty)).getD false

/-- One observable action of the `PromptEvent::Validate` arm, in
application order. -/
inductive ValidateStep
  | applyPrimary (tx : Transaction)
  | resolveRequest (it : LspItem)
  | applyAdditional (edits : List LspTextEdit)
deriving DecidableEq

/-- The `PromptEvent::Validate` arm of the menu closure for an LSP
candidate, as the ordered list of its document-affecting actions: apply
the primary transaction; then, unless the item already carries non-empty
additional edits, look up the language server (the source `unwrap`s this
lookup — `none` models that panic) and run the blocking resolve; finally
apply the additional edits (the resolved item's, falling back to the
item's own) when they are non-empty. -/
def validate_lsp (doc : List Char) (sel : List Nat) (lsId : Nat) (it : LspItem)
    (servers : Nat → Option ServerCaps) (respond : Option (Option LspItem))
    (start_offset trigger_offset : Nat) : Option (List ValidateStep) :=
  let tx := lsp_item_to_transaction doc sel it start_offset trigger_offset
  let resolveStage : Option (Bool × Option LspItem) :=
    if hasOwnAdditionalEdits it then some (false, none)
    else
      match servers lsId with
      | none => none
      | some caps => some (resolve_completion_item caps respond)
  match resolveStage with
  | none => none
  | some (issued, resolvedItem) =>
      let additionalEdits :=
        match resolvedItem.bind LspItem.additionalTextEdits with
        | some es => some es
        | none => it.additionalTextEdits
      some ([ValidateStep.applyPrimary tx]
        ++ (if issued then [ValidateStep.resolveRequest it] else [])
        ++ (match additionalEdits with
            | some es => if es.isEmpty then [] else [ValidateStep.applyAdditional es]
            | none => []))

/-! ## Resolution coordinator -/

/-- Modelled from the spec: the menu store's `replaceCandidate(old, new)`
(`Menu::replace_option`, ui/menu.rs, not under `src/`): "looks up the
original candidate by value-equality in the live candidate store; if
found, replaces it in place with the resolved version (identity-preserving
swap); if not found, discard the result". -/
def replace_option (old new : CompletionItem) : List CompletionItem → List CompletionItem
  | [] => []
  | x :: xs => if x = old then new :: xs else x :: replace_option old new xs

/-- The deferred callback of `ensure_item_resolved`, delivered on the
owner thread: `response` is the parsed resolve reply, `store` the
candidate list of the completion popup if it is still open (`none` after
the popup closed).  A `none` response returns at once; a live store is
mutated only by `replace_option` of the original candidate, rebuilt by
value, with the resolved one. -/
def resolution_callback (origIt : LspItem) (lsId enc : Nat) (response : Option LspItem)
    (store : Option (List CompletionItem)) : Option (List CompletionItem) :=
  match response with
  | none => store
  | some resolvedIt =>
      match store with
      | none => none
      | some items =>
          some (replace_option (CompletionItem.lsp lsId origIt enc)
            (CompletionItem.lsp lsId resolvedIt enc) items)

/-- A registered language server: its id and capabilities. -/
structure LangServer where
  id : Nat
  caps : ServerCaps
deriving DecidableEq

/-- Modelled from the spec: `helix_lsp::Client::resolve_completion_item`
(helix-lsp, not under `src/`) — "resolveCandidate(candidate) -> optional
deferred result", producing a deferred request only when
"capabilities().resolveSupported" holds, i.e. a completion provider with
`resolve_provider == Some(true)` is declared.  The returned value models
the pending request's payload. -/
def client_resolve_completion_item (ls : LangServer) (it : LspItem) : Option LspItem :=
  match ls.caps.completionProvider with
  | some (some true) => some it
  | _ => none

/-- `Completion::ensure_item_resolved` from the source: the pair of its
return value and the request it issued (if any).  It proceeds only when
the focused candidate is an LSP item with no documentation; then only
when a registered server has the candidate's server id; then only when
the client produces a deferred resolve request; it returns `true` exactly
after scheduling that request's callback. -/
def ensure_item_resolved (selection : Option CompletionItem) (servers : List LangServer) :
    Bool × Option LspItem :=
  match selection with
  | some (CompletionItem.lsp lsId it _) =>
      if it.documentation = none then
        match servers.find? (fun ls => ls.id == lsId) with
        | none => (false, none)
        | some ls =>
            match client_resolve_completion_item ls it with
            | none => (false, none)
            | some req => (true, some req)
      else (false, none)
  | _ => (false, none)

/-! ## Helper lemmas about the edit synthesizer -/

theorem lsp_item_to_transaction_no_edit (doc : List Char) (sel : List Nat) (it : LspItem)
    (start_offset trigger_offset : Nat) (hte : it.textEdit = none) :
    lsp_item_to_transaction doc sel it start_offset trigger_offset
      = sel.map (fun cursor => (cursor, cursor,
          some (trimStartMatches (sliceChars doc start_offset trigger_offset)
            (it.insertText.getD it.label)))) := by
  unfold lsp_item_to_transaction
  rw [hte]

theorem path_item_to_transaction_eq (doc : List Char) (sel : List Nat)
    (candidate head tok : List Char) (trigger_offset : Nat)
    (hhead : pathFileName candidate = some head)
    (htok : findPathToken (sliceChars doc (lineStart doc trigger_offset) trigger_offset)
      = some tok) :
    path_item_to_transaction doc sel candidate trigger_offset
      = some (sel.map (fun cursor => (cursor, cursor, some (trimStartMatches
          (if tok.getLast? = some '/' then (pathFileName tok).getD [] ++ ['/']
            else (pathFileName tok).getD [])
          head)))) := by
  simp only [path_item_to_transaction, hhead, htok]

/-! ## Concrete fixtures -/

/-- An LSP item with no explicit edit and insert text `private`. -/
def itemPrivate : LspItem :=
  { label := "private".toList, filterText := none, insertText := some ("private".toList),
    textEdit := none, additionalTextEdits := none, documentation := none, preselect := none }

/-- An LSP item with no explicit edit and insert text `priprivate`, whose
front repeats the typed fragment `pri`. -/
def itemPriprivate : LspItem :=
  { label := "priprivate".toList, filterText := none,
    insertText := some ("priprivate".toList), textEdit := none,
    additionalTextEdits := none, documentation := none, preselect := none }

/-! ## C1 -/

/-- C1: the source guard is `trigger_offset <= cursor`, so the filter is
recomputed only from the trigger offset up and the menu is cleared on any
cursor below it — not, as the claim states, exactly below `anchor.start`.
At `start_offset = 0`, `trigger_offset = 2`, `cursor = 1` over document
`pr` (one backspace, still at or after the anchor start) the code yields
Dismiss while the claim requires Active with fragment `p`; the code's own
comment ("we backspaced before the start offset") describes the claimed
behaviour, not the implemented one. -/
theorem recompute_filter_dismisses_above_start :
    recompute_filter ("pr".toList) 0 2 1 = FilterOutcome.dismiss
    ∧ recompute_filter_claimC1 ("pr".toList) 0 2 1 = FilterOutcome.active ("p".toList)
    ∧ FilterOutcome.dismiss ≠ FilterOutcome.active ("p".toList) := by
  exact ⟨by decide, by decide, by decide⟩

/-! ## C2 -/

/-- C2: when `PATH_REGEX` finds no match in the line text before the
trigger offset (document `open ma`, trigger offset 7: no `/`, `./` or
`../` token), synthesizing the edit for a path candidate does not produce
a recoverable error — the source `unwrap`s the `None` match and panics
(modelled by the `none` result). -/
theorem path_synthesis_panics_on_regex_miss :
    item_to_transaction ("open ma".toList) [7]
      (CompletionItem.path ("./src/main.rs".toList) 0 PathType.file) 5 7 = none
    ∧ findPathToken (sliceChars ("open ma".toList)
        (lineStart ("open ma".toList) 7) 7) = none := by
  exact ⟨by decide, by decide⟩

/-! ## C4 -/

/-- The claim's single-strip reading of the no-edit synthesis, stated
from the spec's words for comparison: strip the typed fragment from the
front of the candidate text once, when it is a prefix. -/
def stripFragmentOnceClaimC4 (p s : List Char) : List Char :=
  if p.isPrefixOf s then s.drop p.length else s

/-- C4 counterexample: for typed fragment `pri` and insert text
`priprivate` the code inserts `vate` — `trim_start_matches` strips the
fragment twice — while the claim's single strip of the prefix leaves
`private`. -/
theorem lsp_no_edit_overtrims_repeated_fragment :
    item_to_transaction ("pri".toList) [3] (CompletionItem.lsp 0 itemPriprivate 0) 0 3
      = some [(3, 3, some ("vate".toList))]
    ∧ stripFragmentOnceClaimC4 ("pri".toList) ("priprivate".toList) = "private".toList
    ∧ ("vate".toList) ≠ ("private".toList) := by
  exact ⟨by decide, by decide, by decide⟩

/-- C4 (amended): for an LSP candidate without an explicit edit region
the synthesized transaction inserts, at every cursor of the selection,
the candidate text (insertText, falling back to label) with every leading
repetition of the typed fragment `doc[start_offset..trigger_offset]`
removed (Rust `trim_start_matches`), as an insert-only change; when the
fragment occurs as a leading prefix exactly once, the inserted text is
exactly the remainder after stripping it once (so fragment `pri` with
insert text `private` inserts `vate` at the cursor). -/
theorem lsp_no_edit_inserts_trimmed_text
    (doc : List Char) (sel : List Nat) (lsId enc start_offset trigger_offset : Nat)
    (it : LspItem) (hte : it.textEdit = none) :
    item_to_transaction doc sel (CompletionItem.lsp lsId it enc) start_offset trigger_offset
      = some (sel.map (fun cursor => (cursor, cursor,
          some (trimStartMatches (sliceChars doc start_offset trigger_offset)
            (it.insertText.getD it.label)))))
    ∧ ((sliceChars doc start_offset trigger_offset).isEmpty = false →
        (sliceChars doc start_offset trigger_offset).isPrefixOf
          (it.insertText.getD it.label) = true →
        (sliceChars doc start_offset trigger_offset).isPrefixOf
          ((it.insertText.getD it.label).drop
            (sliceChars doc start_offset trigger_offset).length) = false →
        trimStartMatches (sliceChars doc start_offset trigger_offset)
            (it.insertText.getD it.label)
          = (it.insertText.getD it.label).drop
              (sliceChars doc start_offset trigger_offset).length) := by
  constructor
  · show some (lsp_item_to_transaction doc sel it start_offset trigger_offset) = _
    rw [lsp_item_to_transaction_no_edit doc sel it start_offset trigger_offset hte]
  · intro h1 h2 h3
    exact trimStartMatches_single _ _ h1 h2 h3

/-- C4 witness: fragment `pri`, insert text `private`: the synthesized
transaction inserts exactly `vate` at the cursor. -/
theorem lsp_no_edit_inserts_trimmed_text_witness :
    item_to_transaction ("pri".toList) [3] (CompletionItem.lsp 0 itemPrivate 0) 0 3
      = some [(3, 3, some ("vate".toList))] := by
  have h := (lsp_no_edit_inserts_trimmed_text ("pri".toList) [3] 0 0 0 3 itemPrivate rfl).1
  exact h.trans (by decide)

/-! ## C5 -/

/-- The claim's reading of the path synthesis, stated from the spec's
words for comparison: the separator is appended to the typed prefix when
the CANDIDATE's full path ends with it (the code instead tests the token
matched from the line). -/
def pathInsertTextClaimC5 (doc candidate : List Char) (trigger_offset : Nat) :
    Option (List Char) :=
  match pathFileName candidate with
  | none => none
  | some head =>
      match findPathToken (sliceChars doc (lineStart doc trigger_offset) trigger_offset) with
      | none => none
      | some tok =>
          let pfx0 := (pathFileName tok).getD []
          let pfx := if candidate.getLast? = some '/' then pfx0 ++ ['/'] else pfx0
          some (trimStartMatches pfx head)

/-- C5 counterexample: line `open ./src/` (typed token `./src/`, ending
in the separator), candidate `./src/srcfile.rs` (not ending in the
separator).  The code appends `/` to the prefix because the LINE TOKEN
ends with it, so nothing is stripped and `srcfile.rs` is inserted; under
the claim's rule (separator appended only when the candidate's path ends
with it) the prefix would be `src` and the insertion `file.rs`. -/
theorem path_separator_check_uses_line_token :
    item_to_transaction ("open ./src/".toList) [11]
      (CompletionItem.path ("./src/srcfile.rs".toList) 0 PathType.file) 5 11
      = some [(11, 11, some ("srcfile.rs".toList))]
    ∧ pathInsertTextClaimC5 ("open ./src/".toList) ("./src/srcfile.rs".toList) 11
        = some ("file.rs".toList)
    ∧ ("srcfile.rs".toList) ≠ ("file.rs".toList) := by
  exact ⟨by decide, by decide, by decide⟩

/-- C5 (amended): the path synthesis extracts the trailing path-like
token before the cursor on the current line, takes that token's final
path component as the already-typed prefix, appends the path separator to
the prefix before stripping when the EXTRACTED LINE TOKEN ends with the
separator, and inserts the candidate's file name with every leading
repetition of that prefix stripped, at every cursor; in particular for
line `open ./src/ma` with the cursor at its end and candidate
`./src/main.rs` the synthesized edit inserts `in.rs`. -/
theorem path_synthesis_inserts_suffix
    (doc : List Char) (sel : List Nat) (perm : Nat) (pt : PathType)
    (candidate head tok : List Char) (start_offset trigger_offset : Nat)
    (hhead : pathFileName candidate = some head)
    (htok : findPathToken (sliceChars doc (lineStart doc trigger_offset) trigger_offset)
      = some tok) :
    item_to_transaction doc sel (CompletionItem.path candidate perm pt)
        start_offset trigger_offset
      = some (sel.map (fun cursor => (cursor, cursor, some (trimStartMatches
          (if tok.getLast? = some '/' then (pathFileName tok).getD [] ++ ['/']
            else (pathFileName tok).getD [])
          head)))) := by
  show path_item_to_transaction doc sel candidate trigger_offset = _
  exact path_item_to_transaction_eq doc sel candidate head tok trigger_offset hhead htok

/-- C5 witness: line `open ./src/ma`, cursor at its end, candidate
`./src/main.rs`: the synthesized edit inserts `in.rs` at the cursor. -/
theorem path_synthesis_inserts_suffix_witness :
    item_to_transaction ("open ./src/ma".toList) [13]
      (CompletionItem.path ("./src/main.rs".toList) 0 PathType.file) 11 13
      = some [(13, 13, some ("in.rs".toList))] := by
  have h := path_synthesis_inserts_suffix ("open ./src/ma".toList) [13] 0 PathType.file
    ("./src/main.rs".toList) ("main.rs".toList) ("./src/ma".toList) 11 13
    (by decide) (by decide)
  exact h.trans (by decide)

/-! ## C3 -/

/-- C3: starting from the savepoint taken at popup creation, for every
sequence of Update events (each applying its focused candidate's
synthesized transaction) the document content immediately before each
preview is applied equals the content at popup creation — previews
replace, never stack on, the previous preview — and an Abort after any
number of Updates returns the document to exactly its pre-popup
content. -/
theorem preview_restore_and_abort_purity (c0 : List Char)
    (ss : List (List Char → Transaction)) :
    prePreviewContents ss (popupCreate c0) = ss.map (fun _ => c0)
    ∧ (handleAbortEvent (runUpdates ss (popupCreate c0))).content = c0 := by
  constructor
  · exact prePreviewContents_const c0 ss (popupCreate c0) rfl
  · show (runUpdates ss (popupCreate c0)).savepoint = c0
    rw [runUpdates_savepoint]
    rfl

/-! ## C8 -/

/-- A preselected LSP candidate (`preselect.unwrap_or(false)` true). -/
def isPreselectedLsp : CompletionItem → Bool
  | CompletionItem.lsp _ it _ => it.preselect.getD false
  | CompletionItem.path _ _ _ => false

/-- A non-preselected LSP candidate. -/
def isNonPreselectedLsp : CompletionItem → Bool
  | CompletionItem.lsp _ it _ => !(it.preselect.getD false)
  | CompletionItem.path _ _ _ => false

theorem preselectKey_eq_isNonPreselectedLsp (x : CompletionItem) :
    preselectKey x = isNonPreselectedLsp x := by
  cases x <;> rfl

theorem isPreselectedLsp_key (x : CompletionItem) (h : isPreselectedLsp x = true) :
    preselectKey x = false := by
  cases x with
  | lsp a it b =>
      simp only [isPreselectedLsp] at h
      simp only [preselectKey]
      rw [h]
      rfl
  | path a b c => exact Bool.noConfusion h

/-- Candidate `B`: a non-preselected LSP item. -/
def itemNoPreB : CompletionItem :=
  CompletionItem.lsp 0
    { label := "B".toList, filterText := none, insertText := none, textEdit := none,
      additionalTextEdits := none, documentation := none, preselect := some false } 0

/-- Candidate `A`: a preselected LSP item. -/
def itemPreA : CompletionItem :=
  CompletionItem.lsp 0
    { label := "A".toList, filterText := none, insertText := none, textEdit := none,
      additionalTextEdits := none, documentation := none, preselect := some true } 0

/-- Candidate `C`: an LSP item with no preselect flag. -/
def itemNoPreC : CompletionItem :=
  CompletionItem.lsp 0
    { label := "C".toList, filterText := none, insertText := none, textEdit := none,
      additionalTextEdits := none, documentation := none, preselect := none } 0

/-- C8: the initial ordering of arriving candidates is the stable sort by
the preselect key: it equals the stable partition (all key-`false`
candidates, then all key-`true` candidates, each part in arrival order);
consequently every preselected LSP candidate precedes every
non-preselected LSP candidate, arrival order is preserved among
candidates of equal preselect status, and for
`[B(pre=false), A(pre=true), C(pre=false)]` the initial order is
`[A, B, C]`. -/
theorem preselect_stable_sort (items : List CompletionItem) :
    sort_by_key items
      = items.filter (fun i => !preselectKey i) ++ items.filter (fun i => preselectKey i)
    ∧ (∀ (i j : Nat) (x y : CompletionItem),
        (sort_by_key items)[i]? = some x → (sort_by_key items)[j]? = some y →
        isPreselectedLsp x = true → isNonPreselectedLsp y = true → i < j)
    ∧ (sort_by_key items).filter isPreselectedLsp = items.filter isPreselectedLsp
    ∧ (sort_by_key items).filter isNonPreselectedLsp = items.filter isNonPreselectedLsp
    ∧ sort_by_key [itemNoPreB, itemPreA, itemNoPreC]
        = [itemPreA, itemNoPreB, itemNoPreC] := by
  have hpart := sort_by_key_eq_partition items
  refine ⟨hpart, ?_, ?_, ?_, by decide⟩
  · intro i j x y hi hj hx hy
    rw [hpart] at hi hj
    have hkx : preselectKey x = false := isPreselectedLsp_key x hx
    have hky : preselectKey y = true := by
      rw [preselectKey_eq_isNonPreselectedLsp]; exact hy
    have hiF : i < (items.filter (fun i => !preselectKey i)).length := by
      by_contra hge
      push_neg at hge
      rw [List.getElem?_append_right hge] at hi
      have hmem : x ∈ items.filter (fun i => preselectKey i) := by
        obtain ⟨hlt, rfl⟩ := List.getElem?_eq_some.mp hi
        exact List.getElem_mem hlt
      have hk : preselectKey x = true := List.of_mem_filter hmem
      rw [hkx] at hk
      exact Bool.noConfusion hk
    have hjF : (items.filter (fun i => !preselectKey i)).length ≤ j := by
      by_contra hlt
      push_neg at hlt
      rw [List.getElem?_append, if_pos hlt] at hj
      have hmem : y ∈ items.filter (fun i => !preselectKey i) := by
        obtain ⟨hlt2, rfl⟩ := List.getElem?_eq_some.mp hj
        exact List.getElem_mem hlt2
      have h2 := (List.mem_filter.mp hmem).2
      simp only [hky, Bool.not_true] at h2
      exact Bool.noConfusion h2
    omega
  · rw [hpart, List.filter_append]
    have h1 : (items.filter (fun i => preselectKey i)).filter isPreselectedLsp = [] := by
      rw [List.filter_eq_nil_iff]
      intro a ha hcontra
      have hk : preselectKey a = true := List.of_mem_filter ha
      rw [isPreselectedLsp_key a hcontra] at hk
      exact Bool.noConfusion hk
    rw [h1, List.append_nil, List.filter_filter]
    apply List.filter_congr
    intro a _
    cases hpa : isPreselectedLsp a with
    | false => rfl
    | true => rw [isPreselectedLsp_key a hpa]; rfl
  · rw [hpart, List.filter_append]
    have h1 : (items.filter (fun i => !preselectKey i)).filter isNonPreselectedLsp = [] := by
      rw [List.filter_eq_nil_iff]
      intro a ha hcontra
      have hk := (List.mem_filter.mp ha).2
      simp only [preselectKey_eq_isNonPreselectedLsp a, hcontra, Bool.not_true] at hk
      exact Bool.noConfusion hk
    rw [h1, List.nil_append, List.filter_filter]
    apply List.filter_congr
    intro a _
    cases hpa : isNonPreselectedLsp a with
    | false => rfl
    | true => rw [preselectKey_eq_isNonPreselectedLsp a, hpa]; rfl

/-- C8 witness: in the sorted `[B, A, C]`, the preselected `A` sits at
index 0, before the non-preselected `B` at index 1. -/
theorem preselect_stable_sort_witness :
    (sort_by_key [itemNoPreB, itemPreA, itemNoPreC])[0]? = some itemPreA
    ∧ (0 : Nat) < 1 := by
  constructor
  · decide
  · exact (preselect_stable_sort [itemNoPreB, itemPreA, itemNoPreC]).2.1 0 1
      itemPreA itemNoPreB (by decide) (by decide) (by decide) (by decide)

/-! ## C6 -/

theorem resolve_completion_item_issued (caps : ServerCaps) (respond : Option (Option LspItem))
    (h : (resolve_completion_item caps respond).1 = true) :
    caps.completionProvider = some (some true) := by
  cases hc : caps.completionProvider with
  | none =>
      exfalso
      unfold resolve_completion_item at h
      rw [hc] at h
      exact Bool.noConfusion h
  | some rp =>
      by_cases hrp : rp = some true
      · rw [hrp]
      · exfalso
        simp only [resolve_completion_item, hc] at h
        rw [if_neg hrp] at h
        exact Bool.noConfusion h

/-- C6: on Validate with a focused LSP candidate, the primary edit's
transaction is the first applied action; every additional-edit
application comes after it; a candidate carrying non-empty additional
edits has exactly those edits applied immediately after the primary edit,
with no resolve request; and a resolve request is issued only when the
candidate carries no non-empty additional edits and the server declares a
completion provider with resolve capability (the fetched additional
edits, or the candidate's own, are then applied after the primary
edit). -/
theorem validate_primary_before_additional
    (doc : List Char) (sel : List Nat) (lsId : Nat) (it : LspItem)
    (servers : Nat → Option ServerCaps) (respond : Option (Option LspItem))
    (start_offset trigger_offset : Nat) (steps : List ValidateStep)
    (hrun : validate_lsp doc sel lsId it servers respond start_offset trigger_offset
      = some steps) :
    steps.head? = some (ValidateStep.applyPrimary
        (lsp_item_to_transaction doc sel it start_offset trigger_offset))
    ∧ (∀ es, ValidateStep.applyAdditional es ∈ steps →
        ValidateStep.applyAdditional es ∈ steps.drop 1)
    ∧ (hasOwnAdditionalEdits it = true →
        steps = [ValidateStep.applyPrimary
            (lsp_item_to_transaction doc sel it start_offset trigger_offset),
          ValidateStep.applyAdditional (it.additionalTextEdits.getD [])])
    ∧ (∀ it2, ValidateStep.resolveRequest it2 ∈ steps →
        hasOwnAdditionalEdits it = false
        ∧ ∃ caps, servers lsId = some caps
            ∧ caps.completionProvider = some (some true)) := by
  by_cases hOwn : hasOwnAdditionalEdits it = true
  · obtain ⟨es, hes, hne⟩ : ∃ es, it.additionalTextEdits = some es ∧ es.isEmpty = false := by
      unfold hasOwnAdditionalEdits at hOwn
      cases hads : it.additionalTextEdits with
      | none => rw [hads] at hOwn; exact Bool.noConfusion hOwn
      | some es0 =>
          rw [hads] at hOwn
          refine ⟨es0, rfl, ?_⟩
          cases hie : es0.isEmpty with
          | false => rfl
          | true =>
              rw [Option.map_some', Option.getD_some, hie] at hOwn
              exact Bool.noConfusion hOwn
    simp [validate_lsp, hOwn, hes, hne] at hrun
    subst hrun
    refine ⟨rfl, ?_, ?_, ?_⟩
    · intro es2 hmem
      rcases List.mem_cons.mp hmem with heq | h2
      · exact absurd heq (by simp)
      · exact h2
    · intro _
      rw [hes]
      rfl
    · intro it2 hmem
      exfalso
      rcases List.mem_cons.mp hmem with heq | h2
      · exact absurd heq (by simp)
      · rcases List.mem_cons.mp h2 with heq2 | h3
        · exact absurd heq2 (by simp)
        · exact absurd h3 (List.not_mem_nil _)
  · rw [Bool.not_eq_true] at hOwn
    cases hs : servers lsId with
    | none =>
        exfalso
        simp [validate_lsp, hOwn, hs] at hrun
    | some caps =>
        simp [validate_lsp, hOwn, hs] at hrun
        subst hrun
        refine ⟨rfl, ?_, ?_, ?_⟩
        · intro es2 hmem
          rcases List.mem_cons.mp hmem with heq | h2
          · exact absurd heq (by simp)
          · exact h2
        · intro hcontra
          rw [hcontra] at hOwn
          exact Bool.noConfusion hOwn
        · intro it2 hmem
          rcases List.mem_cons.mp hmem with heq | hmem2
          · exact absurd heq (by simp)
          · rcases List.mem_append.mp hmem2 with hmid | hM
            · by_cases hiss : (resolve_completion_item caps respond).1 = true
              · exact ⟨hOwn, caps, rfl, resolve_completion_item_issued caps respond hiss⟩
              · rw [if_neg hiss] at hmid
                exact absurd hmid (List.not_mem_nil _)
            · exfalso
              cases hA : (match (resolve_completion_item caps respond).2.bind
                    LspItem.additionalTextEdits with
                  | some es => some es
                  | none => it.additionalTextEdits) with
              | none => simp [hA] at hM
              | some es3 =>
                  simp only [hA] at hM
                  by_cases he3 : es3 = []
                  · simp [he3] at hM
                  · simp [he3] at hM

/-- An LSP item carrying a non-empty list of additional edits. -/
def itemWithAdditional : LspItem :=
  { label := "private".toList, filterText := none,
    insertText := some ("private".toList), textEdit := none,
    additionalTextEdits := some [{ rangeStart := 0, rangeEnd := 0, newText := "use a;".toList }],
    documentation := none, preselect := none }

/-- The Validate action list for `itemWithAdditional` over document `pri`. -/
def c6steps : List ValidateStep :=
  [ValidateStep.applyPrimary (lsp_item_to_transaction ("pri".toList) [3] itemWithAdditional 0 3),
    ValidateStep.applyAdditional [{ rangeStart := 0, rangeEnd := 0, newText := "use a;".toList }]]

/-- C6 witness: validating a candidate that carries a non-empty
additional edit applies the primary transaction first. -/
theorem validate_primary_before_additional_witness :
    validate_lsp ("pri".toList) [3] 1 itemWithAdditional (fun _ => none) none 0 3
      = some c6steps
    ∧ c6steps.head? = some (ValidateStep.applyPrimary
        (lsp_item_to_transaction ("pri".toList) [3] itemWithAdditional 0 3)) := by
  refine ⟨by decide, ?_⟩
  exact (validate_primary_before_additional ("pri".toList) [3] 1 itemWithAdditional
    (fun _ => none) none 0 3 c6steps (by decide)).1

/-! ## C7 -/

theorem replace_option_not_mem (old new : CompletionItem) :
    ∀ l : List CompletionItem, old ∉ l → replace_option old new l = l := by
  intro l
  induction l with
  | nil => intro _; rfl
  | cons x xs ih =>
      intro h
      have hx : x ≠ old := fun he => h (he ▸ List.mem_cons_self x xs)
      show (if x = old then new :: xs else x :: replace_option old new xs) = x :: xs
      rw [if_neg hx, ih (fun hm => h (List.mem_cons_of_mem x hm))]

theorem replace_option_mem (old new : CompletionItem) :
    ∀ l : List CompletionItem, old ∈ l →
      ∃ pre post, l = pre ++ old :: post ∧ old ∉ pre
        ∧ replace_option old new l = pre ++ new :: post := by
  intro l
  induction l with
  | nil => intro h; exact absurd h (List.not_mem_nil _)
  | cons x xs ih =>
      intro h
      by_cases hx : x = old
      · subst hx
        refine ⟨[], xs, rfl, List.not_mem_nil _, ?_⟩
        show (if x = x then new :: xs else x :: replace_option x new xs) = new :: xs
        rw [if_pos rfl]
      · have hmem : old ∈ xs := by
          rcases List.mem_cons.mp h with he | hm
          · exact absurd he.symm hx
          · exact hm
        obtain ⟨pre, post, hsplit, hnot, hrep⟩ := ih hmem
        refine ⟨x :: pre, post, ?_, ?_, ?_⟩
        · rw [List.cons_append, hsplit]
        · intro hc
          rcases List.mem_cons.mp hc with he | hm
          · exact hx he.symm
          · exact hnot hm
        · show (if x = old then new :: xs else x :: replace_option old new xs)
            = (x :: pre) ++ new :: post
          rw [if_neg hx, hrep]
          rfl

/-- C7: the resolution-delivery callback is race safe: after the popup
has closed (no live candidate store) it mutates nothing and raises no
error, whatever the response; a missing response leaves a live store
untouched; a live store is changed only by `replace_option`, which swaps
the first candidate equal (by value) to the original for the resolved
one, leaves a store not containing the original entirely unchanged, and
never re-inserts or removes anything else. -/
theorem resolution_callback_race_safe (origIt resolvedIt : LspItem) (lsId enc : Nat)
    (response : Option LspItem) (items : List CompletionItem) :
    resolution_callback origIt lsId enc response none = none
    ∧ resolution_callback origIt lsId enc none (some items) = some items
    ∧ resolution_callback origIt lsId enc (some resolvedIt) (some items)
        = some (replace_option (CompletionItem.lsp lsId origIt enc)
            (CompletionItem.lsp lsId resolvedIt enc) items)
    ∧ ((CompletionItem.lsp lsId origIt enc) ∉ items →
        replace_option (CompletionItem.lsp lsId origIt enc)
          (CompletionItem.lsp lsId resolvedIt enc) items = items)
    ∧ ((CompletionItem.lsp lsId origIt enc) ∈ items →
        ∃ pre post, items = pre ++ (CompletionItem.lsp lsId origIt enc) :: post
          ∧ (CompletionItem.lsp lsId origIt enc) ∉ pre
          ∧ replace_option (CompletionItem.lsp lsId origIt enc)
              (CompletionItem.lsp lsId resolvedIt enc) items
              = pre ++ (CompletionItem.lsp lsId resolvedIt enc) :: post) := by
  refine ⟨?_, rfl, rfl, ?_, ?_⟩
  · cases response with
    | none => rfl
    | some r => rfl
  · exact replace_option_not_mem _ _ items
  · exact replace_option_mem _ _ items

/-- C7 witness: with the popup closed the callback yields no store, and
a live store without the original candidate is returned unchanged. -/
theorem resolution_callback_race_safe_witness :
    resolution_callback itemPrivate 1 0 (some itemPriprivate) none = none
    ∧ replace_option (CompletionItem.lsp 1 itemPrivate 0)
        (CompletionItem.lsp 1 itemPriprivate 0) [itemPreA] = [itemPreA] := by
  constructor
  · exact (resolution_callback_race_safe itemPrivate itemPriprivate 1 0
      (some itemPriprivate) []).1
  · exact (resolution_callback_race_safe itemPrivate itemPriprivate 1 0
      (some itemPriprivate) [itemPreA]).2.2.2.1 (by decide)

/-! ## C9 -/

/-- C9: `ensure_item_resolved` returns `true` exactly when a resolve
request was issued; it returns `false` and issues nothing whenever the
focused candidate is absent or a path candidate, or already carries
documentation, or no registered language server has the candidate's
server id, or the client produces no resolve request — which happens
exactly when the server does not advertise resolve capability; and when
all preconditions hold it returns `true` with the issued request. -/
theorem ensure_item_resolved_iff (selection : Option CompletionItem)
    (servers : List LangServer) :
    ((ensure_item_resolved selection servers).1 = true
      ↔ ((ensure_item_resolved selection servers).2).isSome = true)
    ∧ (selection = none → ensure_item_resolved selection servers = (false, none))
    ∧ (∀ p perm pt, selection = some (CompletionItem.path p perm pt) →
        ensure_item_resolved selection servers = (false, none))
    ∧ (∀ lsId it enc d, selection = some (CompletionItem.lsp lsId it enc) →
        it.documentation = some d →
        ensure_item_resolved selection servers = (false, none))
    ∧ (∀ lsId it enc, selection = some (CompletionItem.lsp lsId it enc) →
        servers.find? (fun ls => ls.id == lsId) = none →
        ensure_item_resolved selection servers = (false, none))
    ∧ (∀ lsId it enc ls, selection = some (CompletionItem.lsp lsId it enc) →
        servers.find? (fun ls2 => ls2.id == lsId) = some ls →
        client_resolve_completion_item ls it = none →
        ensure_item_resolved selection servers = (false, none))
    ∧ (∀ ls it, client_resolve_completion_item ls it = none ↔
        ls.caps.completionProvider ≠ some (some true)) := by
  have hc : ∀ ls it, client_resolve_completion_item ls it = none ↔
      ls.caps.completionProvider ≠ some (some true) := by
    intro ls it
    constructor
    · intro h hcp
      unfold client_resolve_completion_item at h
      rw [hcp] at h
      exact Option.noConfusion h
    · intro h
      unfold client_resolve_completion_item
      cases hcp : ls.caps.completionProvider with
      | none => rfl
      | some rp =>
          cases rp with
          | none => rfl
          | some b =>
              cases b with
              | false => rfl
              | true => exact absurd hcp h
  refine ⟨?_, ?_, ?_, ?_, ?_, ?_, hc⟩
  · cases selection with
    | none => simp [ensure_item_resolved]
    | some item =>
        cases item with
        | path p perm pt => simp [ensure_item_resolved]
        | lsp lsId it enc =>
            by_cases hd : it.documentation = none
            · cases hf : servers.find? (fun ls => ls.id == lsId) with
              | none => simp [ensure_item_resolved, hd, hf]
              | some ls =>
                  cases hcl : client_resolve_completion_item ls it with
                  | none => simp [ensure_item_resolved, hd, hf, hcl]
                  | some req => simp [ensure_item_resolved, hd, hf, hcl]
            · simp [ensure_item_resolved, hd]
  · intro h
    subst h
    rfl
  · intro p perm pt h
    subst h
    rfl
  · intro lsId it enc d h hdoc
    subst h
    have hd : ¬ it.documentation = none := by rw [hdoc]; exact Option.noConfusion
    simp [ensure_item_resolved, hd]
  · intro lsId it enc h hf
    subst h
    by_cases hd : it.documentation = none
    · simp [ensure_item_resolved, hd, hf]
    · simp [ensure_item_resolved, hd]
  · intro lsId it enc ls h hf hcl
    subst h
    by_cases hd : it.documentation = none
    · simp [ensure_item_resolved, hd, hf, hcl]
    · simp [ensure_item_resolved, hd]

/-- C9 witness: a focused unresolved LSP candidate whose server is
registered but does not advertise resolve capability yields `false` and
no request. -/
theorem ensure_item_resolved_iff_witness :
    ensure_item_resolved (some (CompletionItem.lsp 1 itemPrivate 0))
      [{ id := 1, caps := { completionProvider := none } }] = (false, none) := by
  exact (ensure_item_resolved_iff (some (CompletionItem.lsp 1 itemPrivate 0))
      [{ id := 1, caps := { completionProvider := none } }]).2.2.2.2.2.1
    1 itemPrivate 0 { id := 1, caps := { completionProvider := none } }
    rfl (by decide) (by decide)

/-! ## C10 -/

/-- C10: for a multi-range selection, the transaction synthesized for an
LSP candidate without an explicit edit region, and likewise for a path
candidate, inserts one common text — computed once from the document,
the anchor offsets and the candidate — at the cursor of every range of
the selection, not only at the primary cursor. -/
theorem multi_cursor_insertion
    (doc : List Char) (sel : List Nat) (lsId enc perm : Nat) (pt : PathType)
    (it : LspItem) (candidate : List Char) (start_offset trigger_offset : Nat) :
    (it.textEdit = none →
      ∃ t, item_to_transaction doc sel (CompletionItem.lsp lsId it enc)
            start_offset trigger_offset
          = some (sel.map (fun cursor => (cursor, cursor, some t))))
    ∧ (∀ tx, item_to_transaction doc sel (CompletionItem.path candidate perm pt)
          start_offset trigger_offset = some tx →
        ∃ t, tx = sel.map (fun cursor => (cursor, cursor, some t))) := by
  constructor
  · intro hte
    refine ⟨trimStartMatches (sliceChars doc start_offset trigger_offset)
      (it.insertText.getD it.label), ?_⟩
    show some (lsp_item_to_transaction doc sel it start_offset trigger_offset) = _
    rw [lsp_item_to_transaction_no_edit doc sel it start_offset trigger_offset hte]
  · intro tx htx
    have htx2 : path_item_to_transaction doc sel candidate trigger_offset = some tx := htx
    cases hhead : pathFileName candidate with
    | none =>
        exfalso
        unfold path_item_to_transaction at htx2
        rw [hhead] at htx2
        exact Option.noConfusion htx2
    | some head =>
        cases htok : findPathToken
            (sliceChars doc (lineStart doc trigger_offset) trigger_offset) with
        | none =>
            exfalso
            simp only [path_item_to_transaction, hhead, htok] at htx2
            exact Option.noConfusion htx2
        | some tok =>
            rw [path_item_to_transaction_eq doc sel candidate head tok trigger_offset
              hhead htok] at htx2
            exact ⟨_, (Option.some.inj htx2).symm⟩

/-- C10 witness: with two cursors (offsets 3 and 9) the no-edit LSP
synthesis inserts the same trimmed text `vate` at both cursors. -/
theorem multi_cursor_insertion_witness :
    item_to_transaction ("pri".toList) [3, 9] (CompletionItem.lsp 0 itemPrivate 0) 0 3
      = some [(3, 3, some ("vate".toList)), (9, 9, some ("vate".toList))] := by
  obtain ⟨t, ht⟩ := (multi_cursor_insertion ("pri".toList) [3, 9] 0 0 0 PathType.file
    itemPrivate ("./a.rs".toList) 0 3).1 rfl
  exact (by decide)
